import Mathlib

/-!
Verification of the sharded LRU key-value cache server (Go sources).

The development shallowly embeds the cache engine and both wire protocols:

* byte strings (`[]byte` / Go `string`) are modelled as `List Nat`, one
  element per byte;
* a cache shard (`LRUCache`, pkg/cache/lru.go and main.go) is its capacity
  together with its recency list, most-recently-used first.  The Go code
  keeps a `map[string]*list.Element` alongside the `container/list`
  doubly-linked list; since the two are kept in lock step (every key of the
  map points at exactly one live list element and vice versa), the pair is
  embedded as the single association list `order`, whose length is the
  entry count `|index| = |order|`;
* the sharded cache (`ShardedCache`) is the fixed array of 16 shards,
  routed by the FNV-1a hash, exactly as in `getShard`;
* the line protocol handlers (`handleConnection` / `handleGet` /
  `handlePut` of the server package) and the RESP-subset codec
  (`parseRESP` / `processCommand` of main.go) are embedded as pure
  functions from the cache state and the received bytes to the reply bytes
  and the new cache state.

All definitions are executable and translated from the source files.
-/

set_option maxRecDepth 100000

namespace KVCache

/-- Byte strings: Go `string` / `[]byte`, one `Nat` per byte. -/
abbrev Str := List Nat

/-- ASCII encoding helper for writing concrete byte strings in statements:
on the ASCII literals used by the protocols, Go byte indexing and this
encoding agree byte for byte. -/
def strBytes (s : String) : Str := s.toList.map Char.toNat

/-! ## Hasher (src/internal/utils/hash.go `FNV32`, identical to main.go `fnv32`) -/

/-- FNV-1a, as written in the source: start from the offset basis
2166136261, and for each byte XOR it into the accumulator and multiply by
the prime 16777619 in 32-bit wraparound arithmetic (`uint32`). -/
def fnv32 (s : Str) : Nat :=
  s.foldl (fun h b => ((h ^^^ b) * 16777619) % 4294967296) 2166136261

/-- Spec-side restatement of the FNV-1a contract of section 4.1, written
from the words of the spec (accumulator threaded byte by byte) and used
only to compare the source hash against the spec. -/
def fnv32SpecAux (acc : Nat) : Str → Nat
  | [] => acc
  | b :: rest => fnv32SpecAux (((acc ^^^ b) * 16777619) % 4294967296) rest

/-- Spec-side FNV-1a: accumulator initialised to 2166136261. -/
def fnv32Spec (s : Str) : Nat := fnv32SpecAux 2166136261 s

/-! ## Cache engine (pkg/cache, src/unnamed/part_002, main.go lines 34-119) -/

/-- Number of shards: `NumShards = 16` in both variants. -/
abbrev NumShards : Nat := 16

/-- Hard cap on key and value length (`MaxKeyValueSize` / `maxKeyValueSize`). -/
def MaxKeyValueSize : Nat := 256

/-- One shard: capacity plus the recency list, most-recently-used first.
The eviction candidate is the last element (the list back). -/
structure LRUCache where
  capacity : Nat
  order : List (Str × Str)
deriving DecidableEq, Inhabited

/-- Go map lookup `shard.items[key]`, returning the stored value: the first
(and, by the map invariant, only) binding of `key` in the recency list. -/
def lookupVal (key : Str) : List (Str × Str) → Option Str
  | [] => none
  | (k, v) :: rest => if k = key then some v else lookupVal key rest

/-- Removal of the unique element holding `key` from the recency list: the
list half of `list.MoveToFront` / `list.Remove`. -/
def eraseKey (key : Str) : List (Str × Str) → List (Str × Str)
  | [] => []
  | (k, v) :: rest => if k = key then rest else (k, v) :: eraseKey key rest

/-- `NewLRUCache`: given capacity, empty map and empty list. -/
def NewLRUCache (capacity : Nat) : LRUCache := ⟨capacity, []⟩

/-- Entry count of a shard (`shard.list.Len()`, equal to `len(shard.items)`). -/
def LRUCache.size (sh : LRUCache) : Nat := sh.order.length

/-- The per-shard body of `ShardedCache.Get`: on a hit the element is moved
to the front of the recency list and its value returned with `true`; on a
miss nothing is touched and `("", false)` is returned. -/
def LRUCache.Get (sh : LRUCache) (key : Str) : (Str × Bool) × LRUCache :=
  match lookupVal key sh.order with
  | some v => ((v, true), { sh with order := (key, v) :: eraseKey key sh.order })
  | none => (([], false), sh)

/-- The per-shard body of `ShardedCache.Put`: an existing key is moved to
the front with its value replaced; a fresh key is pushed to the front, and
if the list now exceeds the capacity the back element is removed from both
the list and the map. -/
def LRUCache.Put (sh : LRUCache) (key value : Str) : LRUCache :=
  match lookupVal key sh.order with
  | some _ => { sh with order := (key, value) :: eraseKey key sh.order }
  | none =>
    let order1 := (key, value) :: sh.order
    if sh.capacity < order1.length then { sh with order := order1.dropLast }
    else { sh with order := order1 }

/-- The sharded cache: a fixed array of `NumShards` shards. -/
structure ShardedCache where
  shards : Fin NumShards → LRUCache

/-- Shard routing `getShard`: index `fnv32(key) & (NumShards - 1)`. -/
def getShardIdx (key : Str) : Fin NumShards :=
  ⟨fnv32 key &&& (NumShards - 1), Nat.lt_succ_of_le Nat.and_le_right⟩

/-- `NewShardedCache`: every shard starts as `NewLRUCache capacityPerShard`. -/
def NewShardedCache (capacityPerShard : Nat) : ShardedCache :=
  ⟨fun _ => NewLRUCache capacityPerShard⟩

/-- `ShardedCache.Get`: route to the shard, and on a hit promote the entry
(writing the mutated shard back); on a miss the state is untouched. -/
def ShardedCache.Get (c : ShardedCache) (key : Str) : (Str × Bool) × ShardedCache :=
  let i := getShardIdx key
  let r := (c.shards i).Get key
  if r.1.2 then (r.1, ⟨Function.update c.shards i r.2⟩) else (r.1, c)

/-- `ShardedCache.Put`: route to the shard and apply the per-shard put. -/
def ShardedCache.Put (c : ShardedCache) (key value : Str) : ShardedCache :=
  let i := getShardIdx key
  ⟨Function.update c.shards i ((c.shards i).Put key value)⟩

/-- Whether (and with what value) `key` is resident, read without touching
the recency order: map lookup on the shard the key routes to. -/
def ShardedCache.lookupKey (c : ShardedCache) (key : Str) : Option Str :=
  lookupVal key (c.shards (getShardIdx key)).order

/-- One cache operation, for stating state-machine invariants per shard. -/
inductive Op where
  | get (key : Str)
  | put (key value : Str)
deriving DecidableEq

/-- Apply one operation to a shard (the state change of Get or Put). -/
def LRUCache.applyOp (sh : LRUCache) (op : Op) : LRUCache :=
  match op with
  | Op.get k => (sh.Get k).2
  | Op.put k v => sh.Put k v

/-- Run a finite sequence of operations against a shard. -/
def LRUCache.run (sh : LRUCache) (ops : List Op) : LRUCache :=
  ops.foldl LRUCache.applyOp sh

/-- Fold a list of puts into a shard. -/
def LRUCache.putAll (sh : LRUCache) (kvs : List (Str × Str)) : LRUCache :=
  kvs.foldl (fun s q => s.Put q.1 q.2) sh

/-! ## Lock discipline of the source

`ShardedCache.Get` acquires `shard.mutex.RLock()` (the shared lock of the
`sync.RWMutex`) in both variants (src/unnamed/part_002 line 48, main.go
line 93), while `ShardedCache.Put` acquires `shard.mutex.Lock()` (the
exclusive lock). These constants record that textual fact of the source. -/

/-- Which of the two RWMutex lock modes an operation acquires. -/
inductive LockMode where
  | shared
  | exclusive
deriving DecidableEq

/-- Lock acquired by `ShardedCache.Get` in the source: `RLock`, shared. -/
def GetLockMode : LockMode := LockMode.shared

/-- Lock acquired by `ShardedCache.Put` in the source: `Lock`, exclusive. -/
def PutLockMode : LockMode := LockMode.exclusive

/-! ## Line protocol (src/unnamed/part_001: handleConnection, handleGet, handlePut) -/

/-- Reply `ERROR\n` of the server package. -/
def ErrorResponse : Str := strBytes "ERROR\n"

/-- Reply `OK\n` of the server package. -/
def OkResponse : Str := strBytes "OK\n"

/-- Reply `NOTFOUND\n` of the server package. -/
def NotFoundResponse : Str := strBytes "NOTFOUND\n"

/-- The loop `for space < len(ln) && ln[space] == ' ' { space++ }`: skip the
run of leading spaces (byte 32). -/
def skipSpaces : Str → Str
  | [] => []
  | b :: rest => if b = 32 then skipSpaces rest else b :: rest

/-- The loop looking for the first space in `rest` (index of the first byte
32, `none` standing for the Go sentinel `idx = -1`). -/
def findSpaceIdx : Str → Option Nat
  | [] => none
  | b :: rest => if b = 32 then some 0 else (findSpaceIdx rest).map (· + 1)

/-- `handleGet`: skip spaces after the 3-letter command, take everything up
to the line terminator as the key, and reply with the value plus a newline
on a hit or `NOTFOUND\n` on a miss. -/
def handleGet (c : ShardedCache) (ln : Str) : Str × ShardedCache :=
  let key := (skipSpaces (ln.drop 3)).dropLast
  let r := c.Get key
  if r.1.2 then (r.1.1 ++ [10], r.2) else (NotFoundResponse, r.2)

/-- `handlePut`: skip spaces after the command, split the remainder before
the terminator at the first space into key and value, reject a missing
split or an oversize key/value with `ERROR\n`, and otherwise store the
pair and reply `OK\n`. -/
def handlePut (c : ShardedCache) (ln : Str) : Str × ShardedCache :=
  let rest := (skipSpaces (ln.drop 3)).dropLast
  match findSpaceIdx rest with
  | none => (ErrorResponse, c)
  | some idx =>
    if idx < 1 then (ErrorResponse, c)
    else
      let key := rest.take idx
      let value := rest.drop (idx + 1)
      if MaxKeyValueSize < key.length ∨ MaxKeyValueSize < value.length then
        (ErrorResponse, c)
      else
        (OkResponse, c.Put key value)

/-- The per-line dispatch of `handleConnection`: a line shorter than 4
bytes is an error, otherwise the first three bytes select GET or PUT, and
anything else is an error. `ln` is one full line including its trailing
newline, exactly as returned by `reader.ReadString` before processing. -/
def processLine (c : ShardedCache) (ln : Str) : Str × ShardedCache :=
  if ln.length < 4 then (ErrorResponse, c)
  else if ln.take 3 = strBytes "GET" then handleGet c ln
  else if ln.take 3 = strBytes "PUT" then handlePut c ln
  else (ErrorResponse, c)

/-! ## RESP-subset protocol (main.go: parseRESP, processCommand) -/

/-- `bytes.Split(data, []byte{13, 10})`: split on every CRLF occurrence. -/
def splitCRLF : Str → List Str
  | [] => [[]]
  | [b] => [[b]]
  | a :: b :: rest =>
    if a = 13 ∧ b = 10 then [] :: splitCRLF rest
    else
      match splitCRLF (b :: rest) with
      | h :: t => (a :: h) :: t
      | [] => [[a]]

/-- A parsed RESP command, the `(cmd, key, value, ok)` result of `parseRESP`
(`none` for `ok = false`; SET is reported as PUT, as in the source). -/
inductive RCmd where
  | get (key : Str)
  | put (key value : Str)
deriving DecidableEq

/-- `parseRESP`: the frame must start with a `*` and be at least 4 bytes;
the trailing CRLF is trimmed and the rest split on CRLF; a 5-part `*2 ...
GET` frame is a GET of parts[4], a 7-part `*3 ... PUT|SET` frame is a PUT
of parts[4] and parts[6]; everything else does not parse. -/
def parseRESP (data : Str) : Option RCmd :=
  if data.length < 4 then none
  else if data.headD 0 ≠ 42 then none
  else
    let parts := splitCRLF data.dropLast.dropLast
    if parts.length < 4 then none
    else if parts.getD 0 [] = strBytes "*2" ∧ 5 ≤ parts.length ∧
        parts.getD 2 [] = strBytes "GET" then
      some (RCmd.get (parts.getD 4 []))
    else if parts.getD 0 [] = strBytes "*3" ∧ 7 ≤ parts.length ∧
        (parts.getD 2 [] = strBytes "PUT" ∨ parts.getD 2 [] = strBytes "SET") then
      some (RCmd.put (parts.getD 4 []) (parts.getD 6 []))
    else none

/-- Decimal digits of a positive number, most significant first
(`strconv.Itoa` on a Nat), with a fuel argument bounding the recursion. -/
def natDecAux : Nat → Nat → Str
  | 0, _ => []
  | _ + 1, 0 => []
  | fuel + 1, n + 1 => natDecAux fuel ((n + 1) / 10) ++ [48 + (n + 1) % 10]

/-- ASCII decimal rendering of a length, as `strconv.Itoa` produces it. -/
def natDec (n : Nat) : Str := if n = 0 then [48] else natDecAux n n

/-- `processCommand`: an unparsable frame is answered with
`-ERR invalid command\r\n` and no state change; a GET answers the bulk
string of the value or the null bulk `$-1\r\n`; a PUT checks the size cap,
answering `-ERR key or value too long\r\n` with no state change when it is
exceeded and `+OK\r\n` after storing otherwise. -/
def processCommand (c : ShardedCache) (data : Str) : Str × ShardedCache :=
  match parseRESP data with
  | none => (strBytes "-ERR invalid command\r\n", c)
  | some (RCmd.get key) =>
    let r := c.Get key
    if r.1.2 then
      (strBytes "$" ++ natDec r.1.1.length ++ strBytes "\r\n" ++ r.1.1 ++ strBytes "\r\n", r.2)
    else
      (strBytes "$-1\r\n", r.2)
  | some (RCmd.put key value) =>
    if MaxKeyValueSize < key.length ∨ MaxKeyValueSize < value.length then
      (strBytes "-ERR key or value too long\r\n", c)
    else
      (strBytes "+OK\r\n", c.Put key value)

/-- A well-shaped PUT line: the command, a run of spaces, the key, one
separating space, the value (which may itself contain spaces), and the
line terminator. -/
def putLine (n : Nat) (key value : Str) : Str :=
  strBytes "PUT" ++ (List.replicate n 32 ++ (key ++ (32 :: (value ++ [10]))))

/-- A GET line: the command, a run of spaces, the key, the terminator. -/
def getLine (m : Nat) (key : Str) : Str :=
  strBytes "GET" ++ (List.replicate m 32 ++ (key ++ [10]))

/-! ## Basic lemmas about the shard operations -/

theorem lookupVal_eq_none_of (key : Str) (l : List (Str × Str))
    (h : ∀ q ∈ l, q.1 ≠ key) : lookupVal key l = none := by
  induction l with
  | nil => rfl
  | cons q rest ih =>
    have hq : q.1 ≠ key := h q (List.mem_cons_self q rest)
    cases q with
    | mk a b => simp only [lookupVal, if_neg hq]; exact ih fun r hr => h r (List.mem_cons_of_mem _ hr)

theorem lookupVal_append_right (key : Str) (xs ys : List (Str × Str))
    (h : ∀ q ∈ xs, q.1 ≠ key) : lookupVal key (xs ++ ys) = lookupVal key ys := by
  induction xs with
  | nil => rfl
  | cons q rest ih =>
    have hq : q.1 ≠ key := h q (List.mem_cons_self q rest)
    cases q with
    | mk a b =>
      simp only [List.cons_append, lookupVal, if_neg hq]
      exact ih fun r hr => h r (List.mem_cons_of_mem _ hr)

theorem lookupVal_isSome_of_mem (k v : Str) (l : List (Str × Str))
    (h : (k, v) ∈ l) : (lookupVal k l).isSome = true := by
  induction l with
  | nil => cases h
  | cons q rest ih =>
    cases q with
    | mk a b =>
      by_cases ha : a = k
      · simp [lookupVal, ha]
      · rcases List.mem_cons.mp h with he | hm
        · cases he; exact absurd rfl ha
        · simp [lookupVal, ha, ih hm]

theorem eraseKey_append_right (key : Str) (xs ys : List (Str × Str))
    (h : ∀ q ∈ xs, q.1 ≠ key) : eraseKey key (xs ++ ys) = xs ++ eraseKey key ys := by
  induction xs with
  | nil => rfl
  | cons q rest ih =>
    have hq : q.1 ≠ key := h q (List.mem_cons_self q rest)
    cases q with
    | mk a b =>
      simp only [List.cons_append, eraseKey, if_neg hq]
      show (a, b) :: eraseKey key (rest ++ ys) = (a, b) :: (rest ++ eraseKey key ys)
      rw [ih fun r hr => h r (List.mem_cons_of_mem _ hr)]

theorem length_eraseKey (key v : Str) (l : List (Str × Str))
    (h : lookupVal key l = some v) : (eraseKey key l).length + 1 = l.length := by
  induction l with
  | nil => simp [lookupVal] at h
  | cons q rest ih =>
    cases q with
    | mk a b =>
      by_cases ha : a = key
      · simp [eraseKey, ha]
      · simp only [lookupVal, if_neg ha] at h
        simp only [eraseKey, if_neg ha, List.length_cons]
        rw [← ih h]

/-- Unfolding of a miss of the per-shard Get. -/
theorem LRUCache.Get_miss (sh : LRUCache) (k : Str)
    (h : lookupVal k sh.order = none) : sh.Get k = (([], false), sh) := by
  unfold LRUCache.Get
  rw [h]

/-- Unfolding of a hit of the per-shard Get: the entry moves to the front. -/
theorem LRUCache.Get_hit (sh : LRUCache) (k v : Str)
    (h : lookupVal k sh.order = some v) :
    sh.Get k = ((v, true), ⟨sh.capacity, (k, v) :: eraseKey k sh.order⟩) := by
  unfold LRUCache.Get
  rw [h]

/-- Unfolding of a Put on a present key: value replaced, entry promoted. -/
theorem LRUCache.Put_present (sh : LRUCache) (k v w : Str)
    (h : lookupVal k sh.order = some w) :
    sh.Put k v = ⟨sh.capacity, (k, v) :: eraseKey k sh.order⟩ := by
  unfold LRUCache.Put
  rw [h]

/-- Unfolding of a Put on a fresh key with room left: push to the front. -/
theorem LRUCache.Put_fresh (sh : LRUCache) (k v : Str)
    (h : lookupVal k sh.order = none) (hc : sh.order.length < sh.capacity) :
    sh.Put k v = ⟨sh.capacity, (k, v) :: sh.order⟩ := by
  unfold LRUCache.Put
  rw [h]
  have : ¬ sh.capacity < ((k, v) :: sh.order).length := by
    simp only [List.length_cons]; omega
  simp only [this, if_false]

/-- Unfolding of a Put on a fresh key at (or beyond) capacity: push to the
front and drop the back element. -/
theorem LRUCache.Put_evict (sh : LRUCache) (k v : Str)
    (h : lookupVal k sh.order = none) (hc : sh.capacity ≤ sh.order.length) :
    sh.Put k v = ⟨sh.capacity, ((k, v) :: sh.order).dropLast⟩ := by
  unfold LRUCache.Put
  rw [h]
  have : sh.capacity < ((k, v) :: sh.order).length := by
    simp only [List.length_cons]; omega
  simp only [this, if_true]

/-- One operation keeps the entry count at or under the capacity and never
changes the capacity. -/
theorem LRUCache.size_applyOp (sh : LRUCache) (op : Op)
    (h : sh.order.length ≤ sh.capacity) :
    (sh.applyOp op).order.length ≤ sh.capacity ∧ (sh.applyOp op).capacity = sh.capacity := by
  cases op with
  | get k =>
    show (sh.Get k).2.order.length ≤ sh.capacity ∧ (sh.Get k).2.capacity = sh.capacity
    cases hl : lookupVal k sh.order with
    | none => rw [LRUCache.Get_miss sh k hl]; exact ⟨h, rfl⟩
    | some v =>
      rw [LRUCache.Get_hit sh k v hl]
      refine ⟨?_, rfl⟩
      have he := length_eraseKey k v sh.order hl
      simp only [List.length_cons]
      omega
  | put k v =>
    show (sh.Put k v).order.length ≤ sh.capacity ∧ (sh.Put k v).capacity = sh.capacity
    cases hl : lookupVal k sh.order with
    | some w =>
      rw [LRUCache.Put_present sh k v w hl]
      refine ⟨?_, rfl⟩
      have he := length_eraseKey k w sh.order hl
      simp only [List.length_cons]
      omega
    | none =>
      by_cases hc : sh.order.length < sh.capacity
      · rw [LRUCache.Put_fresh sh k v hl hc]
        refine ⟨?_, rfl⟩
        simp only [List.length_cons]
        omega
      · rw [LRUCache.Put_evict sh k v hl (by omega)]
        refine ⟨?_, rfl⟩
        simp only [List.length_dropLast, List.length_cons]
        omega

/-- Running any operation sequence keeps the size bounded by the capacity. -/
theorem LRUCache.run_size_le : ∀ (ops : List Op) (sh : LRUCache),
    sh.order.length ≤ sh.capacity →
    (sh.run ops).order.length ≤ sh.capacity ∧ (sh.run ops).capacity = sh.capacity := by
  intro ops
  induction ops with
  | nil => exact fun sh h => ⟨h, rfl⟩
  | cons op rest ih =>
    intro sh h
    have h1 := LRUCache.size_applyOp sh op h
    have h2 := ih (sh.applyOp op) (by rw [h1.2]; exact h1.1)
    have hrun : sh.run (op :: rest) = (sh.applyOp op).run rest := rfl
    rw [hrun]
    exact ⟨by rw [← h1.2]; exact h2.1, by rw [h2.2, h1.2]⟩

/-- Filling a shard with fresh, pairwise-distinct keys that fit within the
capacity stacks them most-recently-used first, with no eviction. -/
theorem LRUCache.putAll_fresh : ∀ (kvs : List (Str × Str)) (sh : LRUCache),
    (∀ q ∈ kvs, lookupVal q.1 sh.order = none) →
    (kvs.map Prod.fst).Nodup →
    sh.order.length + kvs.length ≤ sh.capacity →
    (sh.putAll kvs).order = kvs.reverse ++ sh.order ∧
    (sh.putAll kvs).capacity = sh.capacity := by
  intro kvs
  induction kvs with
  | nil => exact fun sh _ _ _ => ⟨by simp [LRUCache.putAll], rfl⟩
  | cons q rest ih =>
    intro sh hfresh hnd hlen
    have hq : lookupVal q.1 sh.order = none := hfresh q (List.mem_cons_self q rest)
    have hroom : sh.order.length < sh.capacity := by
      simp only [List.length_cons] at hlen; omega
    have hstep : sh.putAll (q :: rest) = (⟨sh.capacity, (q.1, q.2) :: sh.order⟩ :
        LRUCache).putAll rest := by
      show (sh.Put q.1 q.2).putAll rest = _
      rw [LRUCache.Put_fresh sh q.1 q.2 hq hroom]
    have hnd1 : q.1 ∉ rest.map Prod.fst := (List.nodup_cons.mp hnd).1
    have hnd2 : (rest.map Prod.fst).Nodup := (List.nodup_cons.mp hnd).2
    have hfresh1 : ∀ r ∈ rest, lookupVal r.1 ((q.1, q.2) :: sh.order) = none := by
      intro r hr
      have hne : q.1 ≠ r.1 := by
        intro he
        apply hnd1
        rw [he]
        exact List.mem_map_of_mem Prod.fst hr
      show lookupVal r.1 ((q.1, q.2) :: sh.order) = none
      simp only [lookupVal, if_neg hne]
      exact hfresh r (List.mem_cons_of_mem _ hr)
    have hlen1 : ((q.1, q.2) :: sh.order).length + rest.length ≤ sh.capacity := by
      simp only [List.length_cons] at *; omega
    have := ih ⟨sh.capacity, (q.1, q.2) :: sh.order⟩ hfresh1 hnd2 hlen1
    rw [hstep]
    refine ⟨?_, this.2⟩
    rw [this.1]
    simp [List.append_assoc]

/-! ## Claim theorems -/

/-- C1: for every shard of capacity `C` and every finite get/put sequence
from empty, the entry count stays at most `C`; and putting `C + 1` distinct
keys (the first being `k1`, then `mid`, then `p`) into an empty shard
leaves exactly the order `p :: mid.reverse` — `C` keys resident with the
least-recently-touched key `k1` evicted. -/
theorem capacity_invariant_and_lru_eviction (C : Nat) (ops : List Op) (k1 v1 : Str)
    (mid : List (Str × Str)) (p : Str × Str)
    (hnd : (((k1, v1) :: mid ++ [p]).map Prod.fst).Nodup)
    (hC : mid.length + 1 = C) :
    ((NewLRUCache C).run ops).size ≤ C ∧
    ((NewLRUCache C).putAll ((k1, v1) :: mid ++ [p])).order = p :: mid.reverse ∧
    ((NewLRUCache C).putAll ((k1, v1) :: mid ++ [p])).size = C ∧
    lookupVal k1 ((NewLRUCache C).putAll ((k1, v1) :: mid ++ [p])).order = none := by
  have hmap : (((k1, v1) :: mid ++ [p]).map Prod.fst) = k1 :: (mid.map Prod.fst ++ [p.1]) := by
    simp
  rw [hmap] at hnd
  obtain ⟨hk1, hnd'⟩ := List.nodup_cons.mp hnd
  have hk1mid : k1 ∉ mid.map Prod.fst := fun h => hk1 (List.mem_append_left _ h)
  have hk1p : k1 ≠ p.1 := fun h => hk1 (List.mem_append_right _ (by rw [h]; exact List.mem_singleton.mpr rfl))
  obtain ⟨hmidnd, _, hdisj⟩ := List.nodup_append.mp hnd'
  have hpmid : p.1 ∉ mid.map Prod.fst := fun h => hdisj h (List.mem_singleton.mpr rfl)
  have hsplit : (NewLRUCache C).putAll ((k1, v1) :: mid ++ [p]) =
      ((NewLRUCache C).putAll ((k1, v1) :: mid)).Put p.1 p.2 := by
    show (((k1, v1) :: mid) ++ [p]).foldl (fun s q => s.Put q.1 q.2) (NewLRUCache C) =
      ((NewLRUCache C).putAll ((k1, v1) :: mid)).Put p.1 p.2
    rw [List.foldl_append]
    rfl
  have hfill := LRUCache.putAll_fresh ((k1, v1) :: mid) (NewLRUCache C)
    (fun q _ => rfl)
    (by simp only [List.map_cons]; exact List.nodup_cons.mpr ⟨hk1mid, hmidnd⟩)
    (by show 0 + (mid.length + 1) ≤ C; omega)
  have hAorder : ((NewLRUCache C).putAll ((k1, v1) :: mid)).order =
      mid.reverse ++ [(k1, v1)] := by
    rw [hfill.1]
    simp [NewLRUCache]
  have hAcap : ((NewLRUCache C).putAll ((k1, v1) :: mid)).capacity = C := hfill.2
  have hAlen : ((NewLRUCache C).putAll ((k1, v1) :: mid)).order.length = C := by
    rw [hAorder]
    simp only [List.length_append, List.length_reverse, List.length_singleton]
    omega
  have hfreshp : lookupVal p.1 ((NewLRUCache C).putAll ((k1, v1) :: mid)).order = none := by
    apply lookupVal_eq_none_of
    intro q hq
    rw [hAorder] at hq
    rcases List.mem_append.mp hq with hm | hm
    · intro he
      exact hpmid (he ▸ List.mem_map_of_mem Prod.fst (List.mem_reverse.mp hm))
    · rw [List.mem_singleton.mp hm]
      exact fun he => hk1p he
  have hput := LRUCache.Put_evict _ p.1 p.2 hfreshp (by omega)
  have horder : ((NewLRUCache C).putAll ((k1, v1) :: mid ++ [p])).order = p :: mid.reverse := by
    rw [hsplit, hput]
    show (((p.1, p.2) :: ((NewLRUCache C).putAll ((k1, v1) :: mid)).order).dropLast) = _
    rw [hAorder]
    show (((p.1, p.2) :: mid.reverse) ++ [(k1, v1)]).dropLast = p :: mid.reverse
    rw [List.dropLast_concat]
  refine ⟨?_, horder, ?_, ?_⟩
  · exact (LRUCache.run_size_le ops (NewLRUCache C) (Nat.zero_le C)).1
  · show ((NewLRUCache C).putAll ((k1, v1) :: mid ++ [p])).order.length = C
    rw [horder]
    simp only [List.length_cons, List.length_reverse]
    omega
  · rw [horder]
    apply lookupVal_eq_none_of
    intro q hq
    rcases List.mem_cons.mp hq with he | hm
    · rw [he]
      exact fun hpe => hk1p hpe.symm
    · intro he
      exact hk1mid (he ▸ List.mem_map_of_mem Prod.fst (List.mem_reverse.mp hm))

/-- Witness for C1 at capacity 2: putting a, b, c leaves c, b resident and
a evicted. -/
theorem capacity_invariant_and_lru_eviction_witness :
    ((NewLRUCache 2).run [Op.put (strBytes "a") (strBytes "1"), Op.get (strBytes "a"),
        Op.put (strBytes "b") (strBytes "2"), Op.put (strBytes "c") (strBytes "3")]).size ≤ 2 ∧
    ((NewLRUCache 2).putAll ((strBytes "a", strBytes "1") :: [(strBytes "b", strBytes "2")] ++
        [(strBytes "c", strBytes "3")])).order =
      (strBytes "c", strBytes "3") :: [(strBytes "b", strBytes "2")].reverse ∧
    ((NewLRUCache 2).putAll ((strBytes "a", strBytes "1") :: [(strBytes "b", strBytes "2")] ++
        [(strBytes "c", strBytes "3")])).size = 2 ∧
    lookupVal (strBytes "a") ((NewLRUCache 2).putAll ((strBytes "a", strBytes "1") ::
        [(strBytes "b", strBytes "2")] ++ [(strBytes "c", strBytes "3")])).order = none :=
  capacity_invariant_and_lru_eviction 2
    [Op.put (strBytes "a") (strBytes "1"), Op.get (strBytes "a"),
      Op.put (strBytes "b") (strBytes "2"), Op.put (strBytes "c") (strBytes "3")]
    (strBytes "a") (strBytes "1") [(strBytes "b", strBytes "2")]
    (strBytes "c", strBytes "3") (by decide) (by decide)

/-- C2: with capacity `C`, after putting distinct keys `k1, k2, mid2...`
(`C` in all), reading `k1` (a hit, promoting it), then putting the fresh
key of `p`, the evicted key is `k2` and not `k1`: the final order is
`p :: (k1, v1) :: mid2.reverse`, a get of `k2` misses, and gets of `k1`,
of every key of `mid2` and of the key of `p` all hit. -/
theorem recency_promotion_protects_entry (C : Nat) (k1 v1 k2 v2 : Str)
    (mid2 : List (Str × Str)) (p : Str × Str)
    (hnd : (((k1, v1) :: (k2, v2) :: mid2 ++ [p]).map Prod.fst).Nodup)
    (hC : mid2.length + 2 = C) :
    ((((NewLRUCache C).putAll ((k1, v1) :: (k2, v2) :: mid2)).Get k1).1 = (v1, true)) ∧
    (((((NewLRUCache C).putAll ((k1, v1) :: (k2, v2) :: mid2)).Get k1).2.Put p.1 p.2).order =
      p :: (k1, v1) :: mid2.reverse) ∧
    (lookupVal k2 (((((NewLRUCache C).putAll ((k1, v1) :: (k2, v2) :: mid2)).Get k1).2.Put
      p.1 p.2).order) = none) ∧
    ((((((NewLRUCache C).putAll ((k1, v1) :: (k2, v2) :: mid2)).Get k1).2.Put p.1 p.2).Get
      k2).1 = ([], false)) ∧
    ((((((NewLRUCache C).putAll ((k1, v1) :: (k2, v2) :: mid2)).Get k1).2.Put p.1 p.2).Get
      k1).1 = (v1, true)) ∧
    ((((((NewLRUCache C).putAll ((k1, v1) :: (k2, v2) :: mid2)).Get k1).2.Put p.1 p.2).Get
      p.1).1 = (p.2, true)) ∧
    ((mid2.all fun q => ((((((NewLRUCache C).putAll ((k1, v1) :: (k2, v2) :: mid2)).Get
      k1).2.Put p.1 p.2).Get q.1).1).2) = true) := by
  obtain ⟨pk, pv⟩ := p
  have hmap : (((k1, v1) :: (k2, v2) :: mid2 ++ [(pk, pv)]).map Prod.fst) =
      k1 :: k2 :: (mid2.map Prod.fst ++ [pk]) := by simp
  rw [hmap] at hnd
  obtain ⟨hk1, hnd1⟩ := List.nodup_cons.mp hnd
  obtain ⟨hk2, hnd2⟩ := List.nodup_cons.mp hnd1
  obtain ⟨hmidnd, _, hdisj⟩ := List.nodup_append.mp hnd2
  have hk1k2 : k1 ≠ k2 := fun h => hk1 (by rw [h]; exact List.mem_cons_self _ _)
  have hk1mid : k1 ∉ mid2.map Prod.fst :=
    fun h => hk1 (List.mem_cons_of_mem _ (List.mem_append_left _ h))
  have hk1p : k1 ≠ pk := fun h => hk1 (List.mem_cons_of_mem _
    (List.mem_append_right _ (by rw [h]; exact List.mem_singleton.mpr rfl)))
  have hk2mid : k2 ∉ mid2.map Prod.fst := fun h => hk2 (List.mem_append_left _ h)
  have hk2p : k2 ≠ pk := fun h => hk2 (List.mem_append_right _
    (by rw [h]; exact List.mem_singleton.mpr rfl))
  have hpmid : pk ∉ mid2.map Prod.fst := fun h => hdisj h (List.mem_singleton.mpr rfl)
  have hfill := LRUCache.putAll_fresh ((k1, v1) :: (k2, v2) :: mid2) (NewLRUCache C)
    (fun q _ => rfl)
    (by
      simp only [List.map_cons]
      exact List.nodup_cons.mpr ⟨by
          intro h
          rcases List.mem_cons.mp h with he | hm
          · exact hk1k2 he
          · exact hk1mid hm,
        List.nodup_cons.mpr ⟨hk2mid, hmidnd⟩⟩)
    (by show 0 + (mid2.length + 2) ≤ C; omega)
  have hAorder : ((NewLRUCache C).putAll ((k1, v1) :: (k2, v2) :: mid2)).order =
      (mid2.reverse ++ [(k2, v2)]) ++ [(k1, v1)] := by
    rw [hfill.1]
    simp [NewLRUCache]
  have hAcap : ((NewLRUCache C).putAll ((k1, v1) :: (k2, v2) :: mid2)).capacity = C := hfill.2
  have hxs : ∀ q ∈ mid2.reverse ++ [(k2, v2)], q.1 ≠ k1 := by
    intro q hq
    rcases List.mem_append.mp hq with hm | hm
    · intro he
      exact hk1mid (he ▸ List.mem_map_of_mem Prod.fst (List.mem_reverse.mp hm))
    · rw [List.mem_singleton.mp hm]
      exact fun he => hk1k2 he.symm
  have hlk1 : lookupVal k1 ((NewLRUCache C).putAll ((k1, v1) :: (k2, v2) :: mid2)).order =
      some v1 := by
    rw [hAorder, lookupVal_append_right k1 _ _ hxs]
    simp [lookupVal]
  have hget := LRUCache.Get_hit _ k1 v1 hlk1
  have hBorder : (((NewLRUCache C).putAll ((k1, v1) :: (k2, v2) :: mid2)).Get k1).2.order =
      (k1, v1) :: (mid2.reverse ++ [(k2, v2)]) := by
    rw [hget]
    show (k1, v1) :: eraseKey k1 ((NewLRUCache C).putAll ((k1, v1) :: (k2, v2) :: mid2)).order
      = _
    rw [hAorder, eraseKey_append_right k1 _ _ hxs]
    simp [eraseKey]
  have hBcap : (((NewLRUCache C).putAll ((k1, v1) :: (k2, v2) :: mid2)).Get k1).2.capacity =
      C := by
    rw [hget]
    exact hAcap
  have hfreshp : lookupVal pk
      ((((NewLRUCache C).putAll ((k1, v1) :: (k2, v2) :: mid2)).Get k1).2).order = none := by
    rw [hBorder]
    apply lookupVal_eq_none_of
    intro q hq
    rcases List.mem_cons.mp hq with he | hm
    · rw [he]
      exact fun he2 => hk1p he2
    · rcases List.mem_append.mp hm with hm2 | hm2
      · intro he2
        exact hpmid (he2 ▸ List.mem_map_of_mem Prod.fst (List.mem_reverse.mp hm2))
      · rw [List.mem_singleton.mp hm2]
        exact fun he2 => hk2p he2
  have hBlen : ((((NewLRUCache C).putAll ((k1, v1) :: (k2, v2) :: mid2)).Get
      k1).2).order.length = C := by
    rw [hBorder]
    simp only [List.length_cons, List.length_append, List.length_reverse,
      List.length_singleton, List.length_nil]
    omega
  have hput := LRUCache.Put_evict _ pk pv hfreshp (le_of_eq (by rw [hBcap, hBlen]))
  have horder : ((((NewLRUCache C).putAll ((k1, v1) :: (k2, v2) :: mid2)).Get k1).2.Put
      pk pv).order = (pk, pv) :: (k1, v1) :: mid2.reverse := by
    rw [hput]
    show ((pk, pv) :: (((NewLRUCache C).putAll ((k1, v1) :: (k2, v2) :: mid2)).Get
      k1).2.order).dropLast = _
    rw [hBorder]
    show (((pk, pv) :: (k1, v1) :: mid2.reverse) ++ [(k2, v2)]).dropLast = _
    rw [List.dropLast_concat]
  have hlk2none : lookupVal k2 ((((NewLRUCache C).putAll ((k1, v1) :: (k2, v2) ::
      mid2)).Get k1).2.Put pk pv).order = none := by
    rw [horder]
    apply lookupVal_eq_none_of
    intro q hq
    rcases List.mem_cons.mp hq with he | hm
    · rw [he]
      exact fun he2 => hk2p he2.symm
    · rcases List.mem_cons.mp hm with he2 | hm2
      · rw [he2]
        exact fun he3 => hk1k2 he3
      · intro he3
        exact hk2mid (he3 ▸ List.mem_map_of_mem Prod.fst (List.mem_reverse.mp hm2))
  refine ⟨by rw [hget], horder, hlk2none, ?_, ?_, ?_, ?_⟩
  · rw [LRUCache.Get_miss _ k2 hlk2none]
  · have hl : lookupVal k1 ((((NewLRUCache C).putAll ((k1, v1) :: (k2, v2) :: mid2)).Get
        k1).2.Put pk pv).order = some v1 := by
      rw [horder]
      simp only [lookupVal, if_neg (Ne.symm hk1p), if_pos rfl, eq_self_iff_true, if_true]
    rw [LRUCache.Get_hit _ k1 v1 hl]
  · have hl : lookupVal pk ((((NewLRUCache C).putAll ((k1, v1) :: (k2, v2) :: mid2)).Get
        k1).2.Put pk pv).order = some pv := by
      rw [horder]
      simp [lookupVal]
    rw [LRUCache.Get_hit _ pk pv hl]
  · rw [List.all_eq_true]
    intro q hq
    obtain ⟨qk, qv⟩ := q
    have hqk1 : qk ≠ k1 := by
      intro he
      exact hk1mid (he ▸ List.mem_map_of_mem Prod.fst hq)
    have hqpk : qk ≠ pk := by
      intro he
      exact hpmid (he ▸ List.mem_map_of_mem Prod.fst hq)
    have hsome := lookupVal_isSome_of_mem qk qv mid2.reverse (List.mem_reverse.mpr hq)
    obtain ⟨v, hv⟩ := Option.isSome_iff_exists.mp hsome
    have hl : lookupVal qk ((((NewLRUCache C).putAll ((k1, v1) :: (k2, v2) :: mid2)).Get
        k1).2.Put pk pv).order = some v := by
      rw [horder]
      simp only [lookupVal, if_neg (Ne.symm hqpk), if_neg (Ne.symm hqk1)]
      exact hv
    rw [LRUCache.Get_hit _ qk v hl]

/-- Witness for C2 at capacity 2: put a, put b, get a, put c evicts b and
keeps a. -/
theorem recency_promotion_protects_entry_witness :
    ((((NewLRUCache 2).putAll ((strBytes "a", strBytes "1") :: (strBytes "b", strBytes "2") ::
      ([] : List (Str × Str)))).Get (strBytes "a")).1 = (strBytes "1", true)) ∧
    (((((NewLRUCache 2).putAll ((strBytes "a", strBytes "1") :: (strBytes "b", strBytes "2") ::
      ([] : List (Str × Str)))).Get (strBytes "a")).2.Put (strBytes "c", strBytes "3").1
      (strBytes "c", strBytes "3").2).order =
      (strBytes "c", strBytes "3") :: (strBytes "a", strBytes "1") ::
        ([] : List (Str × Str)).reverse) ∧
    (lookupVal (strBytes "b") (((((NewLRUCache 2).putAll ((strBytes "a", strBytes "1") ::
      (strBytes "b", strBytes "2") :: ([] : List (Str × Str)))).Get (strBytes "a")).2.Put
      (strBytes "c", strBytes "3").1 (strBytes "c", strBytes "3").2).order) = none) ∧
    ((((((NewLRUCache 2).putAll ((strBytes "a", strBytes "1") :: (strBytes "b", strBytes "2") ::
      ([] : List (Str × Str)))).Get (strBytes "a")).2.Put (strBytes "c", strBytes "3").1
      (strBytes "c", strBytes "3").2).Get (strBytes "b")).1 = ([], false)) ∧
    ((((((NewLRUCache 2).putAll ((strBytes "a", strBytes "1") :: (strBytes "b", strBytes "2") ::
      ([] : List (Str × Str)))).Get (strBytes "a")).2.Put (strBytes "c", strBytes "3").1
      (strBytes "c", strBytes "3").2).Get (strBytes "a")).1 = (strBytes "1", true)) ∧
    ((((((NewLRUCache 2).putAll ((strBytes "a", strBytes "1") :: (strBytes "b", strBytes "2") ::
      ([] : List (Str × Str)))).Get (strBytes "a")).2.Put (strBytes "c", strBytes "3").1
      (strBytes "c", strBytes "3").2).Get (strBytes "c", strBytes "3").1).1 =
      ((strBytes "c", strBytes "3").2, true)) ∧
    ((([] : List (Str × Str)).all fun q => (((((((NewLRUCache 2).putAll ((strBytes "a",
      strBytes "1") :: (strBytes "b", strBytes "2") :: ([] : List (Str × Str)))).Get
      (strBytes "a")).2.Put (strBytes "c", strBytes "3").1 (strBytes "c",
      strBytes "3").2).Get q.1).1).2)) = true) :=
  recency_promotion_protects_entry 2 (strBytes "a") (strBytes "1") (strBytes "b")
    (strBytes "2") [] (strBytes "c", strBytes "3") (by decide) (by decide)

/-- Unfolding of `ShardedCache.Put`: the routed shard is replaced by the
result of the per-shard put. -/
theorem ShardedCache.Put_eq (c : ShardedCache) (k v : Str) :
    c.Put k v = ⟨Function.update c.shards (getShardIdx k) ((c.shards (getShardIdx k)).Put k v)⟩ :=
  rfl

/-- Unfolding of a miss of `ShardedCache.Get`: reply not-found, state untouched. -/
theorem ShardedCache.Get_miss_sharded (c : ShardedCache) (k : Str)
    (h : lookupVal k (c.shards (getShardIdx k)).order = none) :
    c.Get k = (([], false), c) := by
  have h1 := LRUCache.Get_miss (c.shards (getShardIdx k)) k h
  simp only [ShardedCache.Get, h1]
  rfl

/-- Unfolding of a hit of `ShardedCache.Get`: the routed shard is written
back with the entry promoted. -/
theorem ShardedCache.Get_hit_sharded (c : ShardedCache) (k v : Str)
    (h : lookupVal k (c.shards (getShardIdx k)).order = some v) :
    c.Get k = ((v, true), ⟨Function.update c.shards (getShardIdx k)
      ⟨(c.shards (getShardIdx k)).capacity,
        (k, v) :: eraseKey k (c.shards (getShardIdx k)).order⟩⟩) := by
  have h1 := LRUCache.Get_hit (c.shards (getShardIdx k)) k v h
  simp only [ShardedCache.Get, h1]
  rfl

/-- C3: in the source a Get that hits does move the accessed entry to the
most-recently-used position (and a miss mutates nothing), yet the lock the
code acquires around this mutation is the shared `RLock`, not the
exclusive lock the claim requires. Evaluated at a concrete two-entry
shard: the hit on b reorders the recency list. -/
theorem get_promotes_but_takes_shared_lock :
    GetLockMode = LockMode.shared ∧
    GetLockMode ≠ LockMode.exclusive ∧
    ((⟨2, [(strBytes "a", strBytes "1"), (strBytes "b", strBytes "2")]⟩ : LRUCache).Get
        (strBytes "b")).2.order =
      [(strBytes "b", strBytes "2"), (strBytes "a", strBytes "1")] ∧
    ((⟨2, [(strBytes "a", strBytes "1"), (strBytes "b", strBytes "2")]⟩ : LRUCache).Get
        (strBytes "b")).2 ≠
      (⟨2, [(strBytes "a", strBytes "1"), (strBytes "b", strBytes "2")]⟩ : LRUCache) ∧
    ((⟨2, [(strBytes "a", strBytes "1")]⟩ : LRUCache).Get (strBytes "z")).2 =
      (⟨2, [(strBytes "a", strBytes "1")]⟩ : LRUCache) ∧
    PutLockMode = LockMode.exclusive := by
  decide

/-- C4: a Put on a key already resident in the cache leaves the routed
shard's entry count unchanged (update, not insert, and no eviction) and
replaces the stored value, so a Get of that key then returns the new value
with found = true. -/
theorem put_existing_updates_in_place (c : ShardedCache) (k v w : Str)
    (hw : c.lookupKey k = some w) :
    ((c.Put k v).shards (getShardIdx k)).size = (c.shards (getShardIdx k)).size ∧
    ((c.Put k v).Get k).1 = (v, true) := by
  have hw2 : lookupVal k (c.shards (getShardIdx k)).order = some w := hw
  have hsh : (c.Put k v).shards (getShardIdx k) = (c.shards (getShardIdx k)).Put k v := by
    rw [ShardedCache.Put_eq]
    exact Function.update_same _ _ _
  have hPP := LRUCache.Put_present (c.shards (getShardIdx k)) k v w hw2
  have hlen := length_eraseKey k w (c.shards (getShardIdx k)).order hw2
  constructor
  · rw [hsh, hPP]
    show ((k, v) :: eraseKey k (c.shards (getShardIdx k)).order).length =
      (c.shards (getShardIdx k)).order.length
    simp only [List.length_cons]
    omega
  · have hl : lookupVal k ((c.Put k v).shards (getShardIdx k)).order = some v := by
      rw [hsh, hPP]
      show lookupVal k ((k, v) :: eraseKey k (c.shards (getShardIdx k)).order) = some v
      simp [lookupVal]
    rw [ShardedCache.Get_hit_sharded (c.Put k v) k v hl]

/-- Witness for C4: update the resident key k from old to new in a small
concrete cache. -/
theorem put_existing_updates_in_place_witness :
    ((((NewShardedCache 2).Put (strBytes "k") (strBytes "old")).Put (strBytes "k")
        (strBytes "new")).shards (getShardIdx (strBytes "k"))).size =
      (((NewShardedCache 2).Put (strBytes "k") (strBytes "old")).shards
        (getShardIdx (strBytes "k"))).size ∧
    ((((NewShardedCache 2).Put (strBytes "k") (strBytes "old")).Put (strBytes "k")
        (strBytes "new")).Get (strBytes "k")).1 = (strBytes "new", true) :=
  put_existing_updates_in_place ((NewShardedCache 2).Put (strBytes "k") (strBytes "old"))
    (strBytes "k") (strBytes "new") (strBytes "old") (by decide)

/-- Along a byte list, the FNV accumulator agrees with the left fold. -/
theorem fnv32SpecAux_eq_foldl : ∀ (s : Str) (acc : Nat),
    fnv32SpecAux acc s = s.foldl (fun h b => ((h ^^^ b) * 16777619) % 4294967296) acc := by
  intro s
  induction s with
  | nil => intro acc; rfl
  | cons b rest ih =>
    intro acc
    simp only [fnv32SpecAux, List.foldl_cons]
    exact ih _

/-- The FNV accumulator stays below 2^32. -/
theorem fnv32_fold_lt : ∀ (s : Str) (acc : Nat), acc < 4294967296 →
    s.foldl (fun h b => ((h ^^^ b) * 16777619) % 4294967296) acc < 4294967296 := by
  intro s
  induction s with
  | nil => exact fun acc h => h
  | cons b rest ih =>
    intro acc h
    simp only [List.foldl_cons]
    exact ih _ (Nat.mod_lt _ (by omega))

/-- C6: the source hash is a pure function computing exactly FNV-1a — it
starts at the offset basis on the empty string and satisfies the
XOR-then-multiply recurrence with 32-bit wraparound byte by byte, agrees
with the spec-side restatement, stays within 32 bits, and the shard index
is its AND with the shard-count mask; being a function of the key bytes
alone, repeated calls and repeated runs yield identical routing. -/
theorem fnv32_is_fnv1a_and_routing_deterministic :
    fnv32 [] = 2166136261 ∧
    (∀ (s : Str) (b : Nat), fnv32 (s ++ [b]) = ((fnv32 s ^^^ b) * 16777619) % 4294967296) ∧
    (∀ s : Str, fnv32 s = fnv32Spec s) ∧
    (∀ s : Str, fnv32 s < 4294967296) ∧
    (∀ s : Str, (getShardIdx s).val = fnv32 s &&& (NumShards - 1)) := by
  refine ⟨rfl, ?_, ?_, ?_, fun s => rfl⟩
  · intro s b
    unfold fnv32
    rw [List.foldl_append]
    rfl
  · intro s
    exact (fnv32SpecAux_eq_foldl s 2166136261).symm
  · intro s
    exact fnv32_fold_lt s 2166136261 (by omega)

/-! ## Lemmas about the line-protocol parsing -/

theorem skipSpaces_replicate (n : Nat) (l : Str) :
    skipSpaces (List.replicate n 32 ++ l) = skipSpaces l := by
  induction n with
  | zero => rfl
  | succ m ih =>
    show skipSpaces (32 :: (List.replicate m 32 ++ l)) = skipSpaces l
    rw [skipSpaces, if_pos rfl]
    exact ih

theorem skipSpaces_append_of_head_ne (key X : Str) (hne : key ≠ []) (h32 : 32 ∉ key) :
    skipSpaces (key ++ X) = key ++ X := by
  cases key with
  | nil => exact absurd rfl hne
  | cons b rest =>
    have hb : ¬ (b = 32) := by
      intro e
      subst e
      exact h32 (List.mem_cons_self _ _)
    show skipSpaces (b :: (rest ++ X)) = (b :: rest) ++ X
    rw [skipSpaces, if_neg hb]
    rfl

theorem findSpaceIdx_no32 (l : Str) (h : 32 ∉ l) : findSpaceIdx l = none := by
  induction l with
  | nil => rfl
  | cons b rest ih =>
    have hb : ¬ (b = 32) := by
      intro e
      subst e
      exact h (List.mem_cons_self _ _)
    have hr : 32 ∉ rest := fun m => h (List.mem_cons_of_mem _ m)
    simp [findSpaceIdx, hb, ih hr]

theorem findSpaceIdx_split (key value : Str) (h : 32 ∉ key) :
    findSpaceIdx (key ++ 32 :: value) = some key.length := by
  induction key with
  | nil => simp [findSpaceIdx]
  | cons b rest ih =>
    have hb : ¬ (b = 32) := by
      intro e
      subst e
      exact h (List.mem_cons_self _ _)
    have hr : 32 ∉ rest := fun m => h (List.mem_cons_of_mem _ m)
    simp [findSpaceIdx, hb, ih hr, List.length_cons]

theorem drop_len_succ_append (key value : Str) :
    (key ++ 32 :: value).drop (key.length + 1) = value := by
  have h : key ++ 32 :: value = (key ++ [32]) ++ value := by simp
  have h2 : key.length + 1 = (key ++ [32]).length := by simp
  rw [h, h2, List.drop_left]

theorem dropLast_put_rest (key value : Str) :
    (key ++ (32 :: (value ++ [10]))).dropLast = key ++ 32 :: value := by
  have h : key ++ (32 :: (value ++ [10])) = (key ++ 32 :: value) ++ [10] := by simp
  rw [h, List.dropLast_concat]

theorem processLine_GET (c : ShardedCache) (X : Str) (hX : X ≠ []) :
    processLine c (strBytes "GET" ++ X) = handleGet c (strBytes "GET" ++ X) := by
  have hlen3 : (strBytes "GET" ++ X).length = X.length + 3 := rfl
  have hpos : 0 < X.length := List.length_pos.mpr hX
  have hlen : ¬ ((strBytes "GET" ++ X).length < 4) := by rw [hlen3]; omega
  have htake : (strBytes "GET" ++ X).take 3 = strBytes "GET" := rfl
  unfold processLine
  rw [if_neg hlen, if_pos htake]

theorem processLine_PUT (c : ShardedCache) (X : Str) (hX : X ≠ []) :
    processLine c (strBytes "PUT" ++ X) = handlePut c (strBytes "PUT" ++ X) := by
  have hlen3 : (strBytes "PUT" ++ X).length = X.length + 3 := rfl
  have hpos : 0 < X.length := List.length_pos.mpr hX
  have hlen : ¬ ((strBytes "PUT" ++ X).length < 4) := by rw [hlen3]; omega
  have htake : (strBytes "PUT" ++ X).take 3 = strBytes "PUT" := rfl
  have hne : strBytes "PUT" ≠ strBytes "GET" := by decide
  unfold processLine
  rw [if_neg hlen, htake, if_neg hne, if_pos rfl]

theorem handlePut_putLine (c : ShardedCache) (n : Nat) (key value : Str)
    (h32 : 32 ∉ key) (hne : key ≠ []) :
    handlePut c (putLine n key value) =
      if MaxKeyValueSize < key.length ∨ MaxKeyValueSize < value.length then
        (ErrorResponse, c)
      else (OkResponse, c.Put key value) := by
  have hdrop : (putLine n key value).drop 3 =
      List.replicate n 32 ++ (key ++ (32 :: (value ++ [10]))) := rfl
  have hrest : (skipSpaces ((putLine n key value).drop 3)).dropLast = key ++ 32 :: value := by
    rw [hdrop, skipSpaces_replicate, skipSpaces_append_of_head_ne _ _ hne h32,
      dropLast_put_rest]
  have hkl : ¬ (key.length < 1) := by
    have := List.length_pos.mpr hne
    omega
  simp only [handlePut, hrest, findSpaceIdx_split _ _ h32]
  rw [if_neg hkl, List.take_left, drop_len_succ_append]

theorem handlePut_noSplit (c : ShardedCache) (m : Nat) (key2 : Str) (h32 : 32 ∉ key2) :
    handlePut c (strBytes "PUT" ++ (List.replicate m 32 ++ (key2 ++ [10]))) =
      (ErrorResponse, c) := by
  have hdrop : (strBytes "PUT" ++ (List.replicate m 32 ++ (key2 ++ [10]))).drop 3 =
      List.replicate m 32 ++ (key2 ++ [10]) := rfl
  have hrest : (skipSpaces ((strBytes "PUT" ++ (List.replicate m 32 ++
      (key2 ++ [10]))).drop 3)).dropLast = key2 := by
    rw [hdrop, skipSpaces_replicate]
    cases hk : key2 with
    | nil =>
      show (skipSpaces [10]).dropLast = []
      rfl
    | cons b rest =>
      rw [← hk, skipSpaces_append_of_head_ne key2 [10] (by rw [hk]; simp) h32,
        List.dropLast_concat]
  simp only [handlePut, hrest, findSpaceIdx_no32 _ h32]

theorem handleGet_line_miss (c : ShardedCache) (m : Nat) (key : Str)
    (hsk : skipSpaces (key ++ [10]) = key ++ [10])
    (hmiss : c.lookupKey key = none) :
    handleGet c (getLine m key) = (NotFoundResponse, c) := by
  have hdrop : (getLine m key).drop 3 = List.replicate m 32 ++ (key ++ [10]) := rfl
  have hkey : (skipSpaces ((getLine m key).drop 3)).dropLast = key := by
    rw [hdrop, skipSpaces_replicate, hsk, List.dropLast_concat]
  simp only [handleGet, hkey]
  rw [ShardedCache.Get_miss_sharded c key hmiss]
  rfl

/-- C8: a PUT line splits, after the command and a run of spaces, at the
first remaining space: the key is everything before it and the value
everything after it up to the terminator — spaces inside the value
included, never re-split — and the pair is stored; a PUT line whose
remainder has no space at all is answered `ERROR\n` with no state change. -/
theorem put_line_splits_on_first_space (c : ShardedCache) (n m : Nat)
    (key value key2 : Str)
    (h32 : 32 ∉ key) (hne : key ≠ [])
    (hkl : key.length ≤ MaxKeyValueSize) (hvl : value.length ≤ MaxKeyValueSize)
    (h2 : 32 ∉ key2) :
    processLine c (putLine n key value) = (OkResponse, c.Put key value) ∧
    processLine c (strBytes "PUT" ++ (List.replicate m 32 ++ (key2 ++ [10]))) =
      (ErrorResponse, c) := by
  constructor
  · have hX : List.replicate n 32 ++ (key ++ (32 :: (value ++ [10]))) ≠ [] := by
      simp
    have e : putLine n key value =
        strBytes "PUT" ++ (List.replicate n 32 ++ (key ++ (32 :: (value ++ [10])))) := rfl
    rw [e, processLine_PUT c _ hX, ← e, handlePut_putLine c n key value h32 hne]
    rw [if_neg (by unfold MaxKeyValueSize at *; omega)]
  · have hX2 : List.replicate m 32 ++ (key2 ++ [10]) ≠ [] := by simp
    rw [processLine_PUT c _ hX2, handlePut_noSplit c m key2 h2]

/-- Witness for C8: `PUT a b c\n` stores key a with value `b c` (the space
inside the value survives), and `PUT d\n` is an error. -/
theorem put_line_splits_on_first_space_witness :
    processLine (NewShardedCache 20000) (putLine 1 [97] [98, 32, 99]) =
      (OkResponse, (NewShardedCache 20000).Put [97] [98, 32, 99]) ∧
    processLine (NewShardedCache 20000)
      (strBytes "PUT" ++ (List.replicate 0 32 ++ ([100] ++ [10]))) =
      (ErrorResponse, NewShardedCache 20000) :=
  put_line_splits_on_first_space (NewShardedCache 20000) 1 0 [97] [98, 32, 99] [100]
    (by decide) (by decide) (by decide) (by decide) (by decide)

/-- C5: a PUT whose key or value is longer than `MaxKeyValueSize` is
answered with the protocol error reply — `ERROR\n` in the line protocol,
`-ERR key or value too long\r\n` in the RESP variant — and the cache state
is returned untouched; a subsequent GET of a key that was never stored
answers not-found (`NOTFOUND\n`, respectively the null bulk `$-1\r\n`). -/
theorem oversize_put_rejected_state_unchanged (c : ShardedCache) (n m : Nat)
    (key value dataP dataG : Str)
    (h32 : 32 ∉ key) (hne : key ≠ [])
    (hbig : MaxKeyValueSize < key.length ∨ MaxKeyValueSize < value.length)
    (hmiss : c.lookupKey key = none)
    (hP : parseRESP dataP = some (RCmd.put key value))
    (hG : parseRESP dataG = some (RCmd.get key)) :
    processLine c (putLine n key value) = (ErrorResponse, c) ∧
    processLine c (getLine m key) = (NotFoundResponse, c) ∧
    processCommand c dataP = (strBytes "-ERR key or value too long\r\n", c) ∧
    processCommand c dataG = (strBytes "$-1\r\n", c) := by
  refine ⟨?_, ?_, ?_, ?_⟩
  · have hX : List.replicate n 32 ++ (key ++ (32 :: (value ++ [10]))) ≠ [] := by
      simp
    have e : putLine n key value =
        strBytes "PUT" ++ (List.replicate n 32 ++ (key ++ (32 :: (value ++ [10])))) := rfl
    rw [e, processLine_PUT c _ hX, ← e, handlePut_putLine c n key value h32 hne,
      if_pos hbig]
  · have hXg : List.replicate m 32 ++ (key ++ [10]) ≠ [] := by simp
    have e : getLine m key = strBytes "GET" ++ (List.replicate m 32 ++ (key ++ [10])) := rfl
    rw [e, processLine_GET c _ hXg, ← e]
    exact handleGet_line_miss c m key (skipSpaces_append_of_head_ne key [10] hne h32) hmiss
  · simp only [processCommand, hP]
    rw [if_pos hbig]
  · simp only [processCommand, hG]
    rw [ShardedCache.Get_miss_sharded c key hmiss]
    rfl

/-- Witness for C5: a 257-byte key is rejected on both protocols and then
reads back as not found. -/
theorem oversize_put_rejected_state_unchanged_witness :
    processLine (NewShardedCache 20000) (putLine 0 (List.replicate 257 97) [98]) =
      (ErrorResponse, NewShardedCache 20000) ∧
    processLine (NewShardedCache 20000) (getLine 0 (List.replicate 257 97)) =
      (NotFoundResponse, NewShardedCache 20000) ∧
    processCommand (NewShardedCache 20000) (strBytes "*3\r\n$3\r\nPUT\r\n$257\r\n" ++
      (List.replicate 257 97 ++ strBytes "\r\n$1\r\nb\r\n")) =
      (strBytes "-ERR key or value too long\r\n", NewShardedCache 20000) ∧
    processCommand (NewShardedCache 20000) (strBytes "*2\r\n$3\r\nGET\r\n$257\r\n" ++
      (List.replicate 257 97 ++ strBytes "\r\n")) =
      (strBytes "$-1\r\n", NewShardedCache 20000) :=
  oversize_put_rejected_state_unchanged (NewShardedCache 20000) 0 0
    (List.replicate 257 97) [98]
    (strBytes "*3\r\n$3\r\nPUT\r\n$257\r\n" ++ (List.replicate 257 97 ++ strBytes "\r\n$1\r\nb\r\n"))
    (strBytes "*2\r\n$3\r\nGET\r\n$257\r\n" ++ (List.replicate 257 97 ++ strBytes "\r\n"))
    (by decide) (by decide) (by decide) (by decide) (by decide) (by decide)

/-- C7: in the line protocol, any line shorter than 4 bytes or whose first
three bytes are neither GET nor PUT is answered `ERROR\n` with no state
change; and from a fresh cache the literal round trip holds: `PUT abc
123\n` answers `OK\n`, then `GET abc\n` answers `123\n`, then `GET
missing\n` answers `NOTFOUND\n`. -/
theorem line_protocol_round_trip_and_errors (c : ShardedCache) (ln : Str)
    (hbad : ln.length < 4 ∨ (ln.take 3 ≠ strBytes "GET" ∧ ln.take 3 ≠ strBytes "PUT")) :
    processLine c ln = (ErrorResponse, c) ∧
    (processLine (NewShardedCache 20000) (strBytes "PUT abc 123\n")).1 = strBytes "OK\n" ∧
    (processLine ((processLine (NewShardedCache 20000) (strBytes "PUT abc 123\n")).2)
      (strBytes "GET abc\n")).1 = strBytes "123\n" ∧
    (processLine ((processLine ((processLine (NewShardedCache 20000)
      (strBytes "PUT abc 123\n")).2) (strBytes "GET abc\n")).2)
      (strBytes "GET missing\n")).1 = strBytes "NOTFOUND\n" := by
  refine ⟨?_, by decide, by decide, by decide⟩
  unfold processLine
  rcases hbad with h | ⟨h1, h2⟩
  · rw [if_pos h]
  · by_cases hl : ln.length < 4
    · rw [if_pos hl]
    · rw [if_neg hl, if_neg h1, if_neg h2]

/-- Witness for C7: the 3-byte line `HI\n` is an error, alongside the
literal round trip. -/
theorem line_protocol_round_trip_and_errors_witness :
    processLine (NewShardedCache 20000) (strBytes "HI\n") =
      (ErrorResponse, NewShardedCache 20000) ∧
    (processLine (NewShardedCache 20000) (strBytes "PUT abc 123\n")).1 = strBytes "OK\n" ∧
    (processLine ((processLine (NewShardedCache 20000) (strBytes "PUT abc 123\n")).2)
      (strBytes "GET abc\n")).1 = strBytes "123\n" ∧
    (processLine ((processLine ((processLine (NewShardedCache 20000)
      (strBytes "PUT abc 123\n")).2) (strBytes "GET abc\n")).2)
      (strBytes "GET missing\n")).1 = strBytes "NOTFOUND\n" :=
  line_protocol_round_trip_and_errors (NewShardedCache 20000) (strBytes "HI\n")
    (Or.inl (by decide))

/-- C9: in the RESP subset, any frame that does not parse as a 2-argument
GET or a 3-argument PUT/SET is answered `-ERR invalid command\r\n` with no
state change; and from a fresh cache the literal round trip holds: the PUT
frame for abc/123 answers `+OK\r\n`, the GET frame for abc answers
`$3\r\n123\r\n`, and the GET frame for z answers `$-1\r\n`. -/
theorem resp_round_trip_and_errors (c : ShardedCache) (data : Str)
    (hbad : parseRESP data = none) :
    processCommand c data = (strBytes "-ERR invalid command\r\n", c) ∧
    (processCommand (NewShardedCache 100000)
      (strBytes "*3\r\n$3\r\nPUT\r\n$3\r\nabc\r\n$3\r\n123\r\n")).1 = strBytes "+OK\r\n" ∧
    (processCommand ((processCommand (NewShardedCache 100000)
      (strBytes "*3\r\n$3\r\nPUT\r\n$3\r\nabc\r\n$3\r\n123\r\n")).2)
      (strBytes "*2\r\n$3\r\nGET\r\n$3\r\nabc\r\n")).1 = strBytes "$3\r\n123\r\n" ∧
    (processCommand ((processCommand ((processCommand (NewShardedCache 100000)
      (strBytes "*3\r\n$3\r\nPUT\r\n$3\r\nabc\r\n$3\r\n123\r\n")).2)
      (strBytes "*2\r\n$3\r\nGET\r\n$3\r\nabc\r\n")).2)
      (strBytes "*2\r\n$3\r\nGET\r\n$1\r\nz\r\n")).1 = strBytes "$-1\r\n" := by
  refine ⟨?_, by decide, by decide, by decide⟩
  simp only [processCommand, hbad]

/-- Witness for C9: a well-framed PING command does not parse and draws
the invalid-command error. -/
theorem resp_round_trip_and_errors_witness :
    processCommand (NewShardedCache 100000) (strBytes "*1\r\n$4\r\nPING\r\n") =
      (strBytes "-ERR invalid command\r\n", NewShardedCache 100000) ∧
    (processCommand (NewShardedCache 100000)
      (strBytes "*3\r\n$3\r\nPUT\r\n$3\r\nabc\r\n$3\r\n123\r\n")).1 = strBytes "+OK\r\n" ∧
    (processCommand ((processCommand (NewShardedCache 100000)
      (strBytes "*3\r\n$3\r\nPUT\r\n$3\r\nabc\r\n$3\r\n123\r\n")).2)
      (strBytes "*2\r\n$3\r\nGET\r\n$3\r\nabc\r\n")).1 = strBytes "$3\r\n123\r\n" ∧
    (processCommand ((processCommand ((processCommand (NewShardedCache 100000)
      (strBytes "*3\r\n$3\r\nPUT\r\n$3\r\nabc\r\n$3\r\n123\r\n")).2)
      (strBytes "*2\r\n$3\r\nGET\r\n$3\r\nabc\r\n")).2)
      (strBytes "*2\r\n$3\r\nGET\r\n$1\r\nz\r\n")).1 = strBytes "$-1\r\n" :=
  resp_round_trip_and_errors (NewShardedCache 100000) (strBytes "*1\r\n$4\r\nPING\r\n")
    (by decide)

/-- C10: a GET line whose key text is empty — `GET\n`, or `GET\n` preceded
by any run of spaces after the command such as `GET \n` — is not rejected:
the handler takes the empty remainder as the key and looks it up, so when
the empty-string key is not stored the reply is `NOTFOUND\n`, not
`ERROR\n`, and the state is untouched. -/
theorem get_empty_key_not_error (c : ShardedCache) (n : Nat)
    (hmiss : c.lookupKey [] = none) :
    processLine c (getLine n []) = (NotFoundResponse, c) := by
  have hX : List.replicate n 32 ++ (([] : Str) ++ [10]) ≠ [] := by simp
  have e : getLine n [] = strBytes "GET" ++ (List.replicate n 32 ++ (([] : Str) ++ [10])) := rfl
  rw [e, processLine_GET c _ hX, ← e]
  exact handleGet_line_miss c n [] rfl hmiss

/-- Witness for C10: `GET \n` on a fresh cache answers `NOTFOUND\n`. -/
theorem get_empty_key_not_error_witness :
    processLine (NewShardedCache 20000) (getLine 1 []) =
      (NotFoundResponse, NewShardedCache 20000) :=
  get_empty_key_not_error (NewShardedCache 20000) 1 (by decide)

end KVCache
